import Mathlib

/-!
# Verification of the CBC Casper core library

A shallow embedding of the core of the CBC Casper message library
(message DAG, equivocation detection, fault-bounded admission,
latest-honest projection, GHOST fork choice, clique safety oracle)
together with proofs and refutations of its specification claims.

Modelling conventions:
* Validator names are `ℕ` (the reference instances are small integers).
* The floating-point weight domain is modelled by the extended integers
  `WithTop ℤ` for the admission machinery (where `⊤` is the `+∞` used as
  the weight of an unknown validator), and by `Option ℤ` for the
  blockchain weight sums (where `none` models IEEE NaN propagation from a
  missing validator).  The claims under verification use weights only
  through sums and order comparisons, which this domain represents
  faithfully; IEEE NaN stored inside the weights map is outside the model.
* Rust `HashSet` / `HashMap` values are modelled by lists; every
  operation below mirrors the source operation on the underlying
  collection, and all modelled results are order-insensitive facts.
* Message equality in the source is comparison of content-derived
  identifiers; on messages whose ids are content derived this coincides
  with structural equality of the content tree, which is how `==` is
  modelled here.  The identifier layer itself (with the constructor's
  id-override parameter) is modelled separately for the identity claim.
-/

/-- Validator names (`validator::ValidatorName`, reference instance `u32`). -/
abbrev V := ℕ

/-- Extended-integer weight domain used by the admission machinery:
`⊤` plays the role of `f64::INFINITY` (`U::INFINITY` in the source). -/
abbrev EW := WithTop ℤ

/-- A Casper message (`message::Message`): a sender, an estimate and a
justification, which is the list of messages it cites
(`ProtoMsg { estimate, sender, justification }`). -/
inductive Msg (E : Type) where
  | mk (sender : V) (est : E) (just : List (Msg E)) : Msg E

namespace Msg

variable {E : Type}

/-- Accessor `Message::sender`. -/
def sender : Msg E → V
  | .mk s _ _ => s

/-- Accessor `Message::estimate`. -/
def est : Msg E → E
  | .mk _ e _ => e

/-- Accessor `Message::justification`. -/
def just : Msg E → List (Msg E)
  | .mk _ _ j => j

mutual

/-- Size measure of the justification DAG below a message, used for
termination of the traversals. -/
def msz : Msg E → ℕ
  | .mk _ _ j => 1 + mszList j

/-- Total size of a list of messages. -/
def mszList : List (Msg E) → ℕ
  | [] => 0
  | m :: l => msz m + mszList l

end

theorem msz_pos (m : Msg E) : 0 < msz m := by
  cases m with
  | mk s e j => rw [msz]; omega

mutual

/-- Structural equality of message content trees (the model of the
source's id-based message equality, see the module conventions). -/
def msgEq [DecidableEq E] : Msg E → Msg E → Bool
  | .mk s₁ e₁ j₁, .mk s₂ e₂ j₂ => s₁ == s₂ && decide (e₁ = e₂) && listEq j₁ j₂

/-- Pointwise equality of message lists. -/
def listEq [DecidableEq E] : List (Msg E) → List (Msg E) → Bool
  | [], [] => true
  | a :: l₁, b :: l₂ => msgEq a b && listEq l₁ l₂
  | _, _ => false

end

theorem msgEq_iff_aux [DecidableEq E] :
    ∀ n : ℕ,
      (∀ a b : Msg E, msz a ≤ n → (msgEq a b = true ↔ a = b)) ∧
      (∀ l₁ l₂ : List (Msg E), mszList l₁ ≤ n → (listEq l₁ l₂ = true ↔ l₁ = l₂)) := by
  intro n
  induction n with
  | zero =>
    constructor
    · intro a b ha
      have := msz_pos a
      omega
    · intro l₁ l₂ hl
      match l₁, l₂ with
      | [], [] => simp [listEq]
      | [], b :: l₂ => simp [listEq]
      | a :: l₁, _ =>
        rw [mszList] at hl
        have := msz_pos a
        omega
  | succ n ih =>
    have hmsg : ∀ a b : Msg E, msz a ≤ n + 1 → (msgEq a b = true ↔ a = b) := by
      intro a b ha
      match a, b with
      | .mk s₁ e₁ j₁, .mk s₂ e₂ j₂ =>
        rw [msz] at ha
        rw [msgEq, Bool.and_eq_true, Bool.and_eq_true, ih.2 j₁ j₂ (by omega)]
        simp [Msg.mk.injEq, and_assoc]
    refine ⟨hmsg, ?_⟩
    intro l₁ l₂ hl
    match l₁, l₂ with
    | [], [] => simp [listEq]
    | [], b :: l₂ => simp [listEq]
    | a :: l₁, [] => simp [listEq]
    | a :: l₁, b :: l₂ =>
      rw [mszList] at hl
      have hpos := msz_pos a
      rw [listEq, Bool.and_eq_true, hmsg a b (by omega), ih.2 l₁ l₂ (by omega)]
      simp

theorem msgEq_iff [DecidableEq E] (a b : Msg E) : msgEq a b = true ↔ a = b :=
  (msgEq_iff_aux (msz a)).1 a b le_rfl

instance [DecidableEq E] : DecidableEq (Msg E) := fun a b =>
  decidable_of_iff (msgEq a b = true) (msgEq_iff a b)

theorem msz_le_of_mem {m : Msg E} {j : List (Msg E)}
    (h : m ∈ j) : msz m ≤ mszList j := by
  induction j with
  | nil => cases h
  | cons a l ih =>
    rw [mszList]
    rcases List.mem_cons.mp h with h | h
    · subst h; omega
    · have := ih h; omega

theorem msz_lt_of_mem {m : Msg E} {s : V} {e : E} {j : List (Msg E)}
    (h : m ∈ j) : msz m < msz (.mk s e j) := by
  rw [msz]
  have := msz_le_of_mem h
  omega

mutual

/-- Relation `CasperMsg::depends`: `a.depends(b)` holds iff `b` is in the
justification of `a` or, recursively, of some message cited there.
The source's memoised parallel traversal computes exactly this
reachability predicate. -/
def depends [DecidableEq E] : Msg E → Msg E → Bool
  | .mk _ _ j, b => decide (b ∈ j) || dependsList j b

/-- Disjunction of `depends` over a justification. -/
def dependsList [DecidableEq E] : List (Msg E) → Msg E → Bool
  | [], _ => false
  | a :: l, b => depends a b || dependsList l b

end

/-- Relation `CasperMsg::equivocates`: distinct messages from the same sender,
incomparable under `depends`. -/
def equivocates [DecidableEq E] (a b : Msg E) : Bool :=
  decide (a ≠ b) && a.sender == b.sender && !(depends b a) && !(depends a b)

end Msg

open Msg

/-! ## Weights (`validator::Weights`, historically `SendersWeight`)

The readers-writer-locked `HashMap<V, U>` is modelled as an association
list; lock poisoning is outside the model (every access succeeds). -/

/-- Lookup `Weights::weight` (the `Ok` payload; `none` models `Error::NotFound`). -/
def lookupW (ws : List (V × EW)) (v : V) : Option EW :=
  ws.lookup v

/-- Write `Weights::insert`: replace the binding of `v` (or append it). -/
def insertW (ws : List (V × EW)) (v : V) (w : EW) : List (V × EW) :=
  match ws with
  | [] => [(v, w)]
  | (k, x) :: t => if k = v then (v, w) :: t else (k, x) :: insertW t v w

/-! ## Message sets and the latest-messages map (`justification::LatestMsgs`) -/

/-- HashSet insert: returns the new set and whether the element was new. -/
def insertS {E : Type} [DecidableEq E] (m : Msg E) (s : List (Msg E)) :
    List (Msg E) × Bool :=
  if m ∈ s then (s, false) else (m :: s, true)

/-- HashSet remove: returns the new set and whether the element was present. -/
def removeS {E : Type} [DecidableEq E] (m : Msg E) (s : List (Msg E)) :
    List (Msg E) × Bool :=
  if m ∈ s then (s.erase m, true) else (s, false)

/-- The map validator to set of latest messages (`LatestMsgs`). -/
abbrev LatestM (E : Type) := List (V × List (Msg E))

/-- Lookup `LatestMsgs::get`. -/
def getLM {E : Type} (lm : LatestM E) (v : V) : Option (List (Msg E)) :=
  lm.lookup v

/-- HashMap insert for the latest-messages map (replace or append binding). -/
def setLM {E : Type} (lm : LatestM E) (v : V) (s : List (Msg E)) : LatestM E :=
  match lm with
  | [] => [(v, s)]
  | (k, x) :: t => if k = v then (v, s) :: t else (k, x) :: setLM t v s

/-- Operation `LatestMsgs::update`: fold over the sender's current tip set
(a snapshot, excluding `m` itself); an incomparable old tip keeps both, a
superseded old tip is replaced, an older `m` is skipped.  Returns the new
map and whether the tip set changed in the sense reported by the source
(the `acc` boolean). -/
def updateLM {E : Type} [DecidableEq E] (lm : LatestM E) (m : Msg E) :
    LatestM E × Bool :=
  match getLM lm m.sender with
  | some T =>
    (T.filter fun old => decide (m ≠ old)).foldl
      (fun st old =>
        let lm' := st.1
        let acc := st.2
        let newIndependentFromOld := !(depends m old)
        if newIndependentFromOld && !(depends old m) then
          -- equivocation, old and new do not depend on each other
          match getLM lm' m.sender with
          | some s =>
            let si := insertS m s
            (setLM lm' m.sender si.1, si.2 || acc)
          | none => (lm', false || acc)
        else if newIndependentFromOld then
          -- new actually older than old
          (lm', acc)
        else
          -- new newer than old: `msgs.remove(old) && msgs.insert(new)`
          match getLM lm' m.sender with
          | some s =>
            let sr := removeS old s
            if sr.2 then
              let si := insertS m sr.1
              (setLM lm' m.sender si.1, si.2 || acc)
            else (setLM lm' m.sender sr.1, false || acc)
          | none => (lm', false || acc))
      (lm, false)
  | none => (setLM lm m.sender [m], true)

/-- Check `LatestMsgs::equivocate`: some current tip of the sender
equivocates with the new message. -/
def equivocateLM {E : Type} [DecidableEq E] (lm : LatestM E) (m : Msg E) : Bool :=
  match getLM lm m.sender with
  | some s => s.any fun x => equivocates x m
  | none => false

/-! ## Justification and the validator state -/

/-- Operation `Justification::insert`: append if not already present;
returns the new sequence and the insertion flag. -/
def insertJ {E : Type} [DecidableEq E] (m : Msg E) (j : List (Msg E)) :
    List (Msg E) × Bool :=
  if m ∈ j then (j, false) else (j ++ [m], true)

/-- HashSet insert for the equivocator set. -/
def insertV (v : V) (l : List V) : List V × Bool :=
  if v ∈ l then (l, false) else (v :: l, true)

/-- The validator state `validator::State`: fault weight, threshold,
weights map, latest messages, equivocator set. -/
structure VState (E : Type) where
  fault : EW
  thr : EW
  weights : List (V × EW)
  latest : LatestM E
  equiv : List V
  deriving DecidableEq

/-- Operation `Justification::faulty_insert`, instrumented with a ghost log
of the weights added to the fault counter (last component; the log is
`[w]` exactly when a new equivocator was admitted through the budget).
Returns (admitted?, new justification, new state, log). -/
def faultyInsertCore {E : Type} [DecidableEq E] (m : Msg E) (j : List (Msg E))
    (S : VState E) : Bool × List (Msg E) × VState E × List EW :=
  let isEquivocation := equivocateLM S.latest m
  let w := (lookupW S.weights m.sender).getD ⊤
  let alreadyInEquivocators := decide (m.sender ∈ S.equiv)
  match isEquivocation, alreadyInEquivocators with
  | true, false =>
    -- have to check that the threshold is not reached
    if w + S.fault ≤ S.thr then
      let ji := insertJ m j
      if ji.2 then
        let lm := updateLM S.latest m
        let eqv := insertV m.sender S.equiv
        if eqv.2 then
          (true, ji.1,
           { S with latest := lm.1, equiv := eqv.1, fault := S.fault + w }, [w])
        else (true, ji.1, { S with latest := lm.1, equiv := eqv.1 }, [])
      else (false, ji.1, S, [])
    else (false, j, S, [])
  | _, _ =>
    -- already equivocating and listed as such, or not equivocating at all
    let ji := insertJ m j
    if ji.2 then (true, ji.1, { S with latest := (updateLM S.latest m).1 }, [])
    else (false, ji.1, S, [])

/-- Operation `Justification::faulty_insert` without the ghost log. -/
def faultyInsert {E : Type} [DecidableEq E] (m : Msg E) (j : List (Msg E))
    (S : VState E) : Bool × List (Msg E) × VState E :=
  let r := faultyInsertCore m j S
  (r.1, r.2.1, r.2.2.1)

/-- Operation `Justification::faulty_insert_with_slash`: on equivocation the
sender joins the equivocators and its weight is zeroed in the shared map;
the message is always pushed through `LatestMsgs::update` and
`Justification::insert`, and the fault counter is never touched.  The
result is the `Ok` payload (lock errors are outside the model). -/
def faultyInsertWithSlash {E : Type} [DecidableEq E] (m : Msg E)
    (j : List (Msg E)) (S : VState E) : Bool × List (Msg E) × VState E :=
  let isEquivocation := equivocateLM S.latest m
  let S₁ :=
    if isEquivocation then
      { S with equiv := (insertV m.sender S.equiv).1,
               weights := insertW S.weights m.sender 0 }
    else S
  let S₂ := { S₁ with latest := (updateLM S₁.latest m).1 }
  let ji := insertJ m j
  (ji.2, ji.1, S₂)

/-- Operation `validator::State::update` on a single message, instrumented
with the ghost log of budget additions. -/
def stateUpdateStep {E : Type} [DecidableEq E] (S : VState E) (m : Msg E) :
    VState E × Bool × List EW :=
  let w := (lookupW S.weights m.sender).getD ⊤
  let lm := updateLM S.latest m
  let S₁ := { S with latest := lm.1 }
  if equivocateLM S₁.latest m && decide (w + S₁.fault ≤ S₁.thr) then
    let eqv := insertV m.sender S₁.equiv
    if eqv.2 then ({ S₁ with equiv := eqv.1, fault := S₁.fault + w }, lm.2, [w])
    else ({ S₁ with equiv := eqv.1 }, lm.2, [])
  else (S₁, lm.2, [])

/-- Operation `validator::State::update` over a batch: fold the single-step
update, conjoining the per-message validity bits. -/
def stateUpdate {E : Type} [DecidableEq E] (ms : List (Msg E)) (S : VState E) :
    VState E × Bool × List EW :=
  ms.foldl
    (fun st m =>
      let r := stateUpdateStep st.1 m
      (r.1, st.2.1 && r.2.1, st.2.2 ++ r.2.2))
    (S, true, [])

/-! ## Content identifiers and `State::sort_by_faultweight`

The `Hashed` content digest is modelled by an injective encoding of the
serialized content into `ℕ`; the total order on digests is the order on
`ℕ`.  As in the source serializer, the justification enters the digest as
the ascending sequence of the ids of its messages. -/

/-- Injective encoding of a list of naturals. -/
def encList : List ℕ → ℕ
  | [] => 0
  | n :: l => Nat.pair n (encList l) + 1

/-- Ascending sort of a list of ids. -/
def sortNat (l : List ℕ) : List ℕ :=
  l.insertionSort (· ≤ ·)

mutual

/-- Content id of a message (`Message::getid`): digest of the sender, the
estimate and the ascending sequence of justification ids, given an
encoding `encE` of estimates. -/
def mid {E : Type} (encE : E → ℕ) : Msg E → ℕ
  | .mk s e j => Nat.pair s (Nat.pair (encE e) (encList (sortNat (midList encE j))))

/-- Ids of the messages of a justification, in justification order. -/
def midList {E : Type} (encE : E → ℕ) : List (Msg E) → List ℕ
  | [] => []
  | m :: l => mid encE m :: midList encE l

end

/-- Sort key of `State::sort_by_faultweight`: `none` when the message
would newly equivocate but its sender is missing from the weights map
(such messages are dropped by the source's `filter_map`), `some 0` for
messages that cannot add fault weight, and the sender's weight otherwise. -/
def faultKeyOpt {E : Type} [DecidableEq E] (S : VState E) (m : Msg E) :
    Option EW :=
  if m.sender ∉ S.equiv ∧ equivocateLM S.latest m = true then
    lookupW S.weights m.sender
  else some 0

/-- Comparator of `sort_by_faultweight`: ascending weight, ties broken by
ascending message id (the `partial_cmp` `None` case cannot arise in the
extended-integer model). -/
def sbfLe {E : Type} (encE : E → ℕ) (p q : Msg E × EW) : Prop :=
  p.2 < q.2 ∨ (p.2 = q.2 ∧ mid encE p.1 ≤ mid encE q.1)

instance {E : Type} (encE : E → ℕ) : DecidableRel (sbfLe encE) := fun p q => by
  unfold sbfLe; infer_instance

/-- Keyed form of `State::sort_by_faultweight`: keep the messages whose
key is defined, sorted by the comparator. -/
def sortByFaultweightKeyed {E : Type} [DecidableEq E] (encE : E → ℕ)
    (S : VState E) (msgs : List (Msg E)) : List (Msg E × EW) :=
  (msgs.filterMap fun m => (faultKeyOpt S m).map fun w => (m, w)).insertionSort
    (sbfLe encE)

/-- Operation `State::sort_by_faultweight`. -/
def sortByFaultweight {E : Type} [DecidableEq E] (encE : E → ℕ) (S : VState E)
    (msgs : List (Msg E)) : List (Msg E) :=
  (sortByFaultweightKeyed encE S msgs).map Prod.fst

/-- Operation `Justification::faulty_inserts`, instrumented with the ghost
log: sort by fault weight, then admit one by one, collecting the admitted
messages.  Returns (admitted, justification, state, log). -/
def faultyInsertsCore {E : Type} [DecidableEq E] (encE : E → ℕ)
    (ms : List (Msg E)) (j : List (Msg E)) (S : VState E) :
    List (Msg E) × List (Msg E) × VState E × List EW :=
  (sortByFaultweight encE S ms).foldl
    (fun st m =>
      let r := faultyInsertCore m st.2.1 st.2.2.1
      (if r.1 then st.1 ++ [m] else st.1, r.2.1, r.2.2.1, st.2.2.2 ++ r.2.2.2))
    ([], j, S, [])

/-- Operation `Justification::faulty_inserts` without the ghost log. -/
def faultyInserts {E : Type} [DecidableEq E] (encE : E → ℕ) (ms : List (Msg E))
    (j : List (Msg E)) (S : VState E) : List (Msg E) × List (Msg E) × VState E :=
  let r := faultyInsertsCore encE ms j S
  (r.1, r.2.1, r.2.2.1)

/-! ## Admission operations as a transition system (for the fault-budget
invariant) -/

/-- One admission operation on a validator state: the four state-mutating
entry points of the admission protocol.  Justification arguments are the
justification the call operates on. -/
inductive AdmOp (E : Type) where
  | finsert (m : Msg E) (j : List (Msg E)) : AdmOp E
  | finserts (ms : List (Msg E)) (j : List (Msg E)) : AdmOp E
  | slash (m : Msg E) (j : List (Msg E)) : AdmOp E
  | supdate (ms : List (Msg E)) : AdmOp E

/-- State reached after one admission operation. -/
def applyOp {E : Type} [DecidableEq E] (encE : E → ℕ) :
    AdmOp E → VState E → VState E
  | .finsert m j, S => (faultyInsertCore m j S).2.2.1
  | .finserts ms j, S => (faultyInsertsCore encE ms j S).2.2.1
  | .slash m j, S => (faultyInsertWithSlash m j S).2.2
  | .supdate ms, S => (stateUpdate ms S).1

/-- Weights recorded for the equivocators included by one operation.  With
`slashPre = false` a slash-included equivocator contributes nothing (its
weight is zeroed by the very operation that includes it); with
`slashPre = true` it contributes the weight it had just before the call,
which is the reading of the original claim. -/
def opLog {E : Type} [DecidableEq E] (encE : E → ℕ) (slashPre : Bool) :
    AdmOp E → VState E → List EW
  | .finsert m j, S => (faultyInsertCore m j S).2.2.2
  | .finserts ms j, S => (faultyInsertsCore encE ms j S).2.2.2
  | .slash m _, S =>
    if slashPre ∧ equivocateLM S.latest m = true ∧ m.sender ∉ S.equiv then
      [(lookupW S.weights m.sender).getD 0]
    else []
  | .supdate ms, S => (stateUpdate ms S).2.2

/-- Run a sequence of admission operations. -/
def runOps {E : Type} [DecidableEq E] (encE : E → ℕ) :
    List (AdmOp E) → VState E → VState E
  | [], S => S
  | op :: t, S => runOps encE t (applyOp encE op S)

/-- Concatenated inclusion log of a run. -/
def runLog {E : Type} [DecidableEq E] (encE : E → ℕ) (slashPre : Bool) :
    List (AdmOp E) → VState E → List EW
  | [], _ => []
  | op :: t, S => opLog encE slashPre op S ++ runLog encE slashPre t (applyOp encE op S)

/-! ## Concrete fixtures used by counterexamples and witnesses -/

/-- A message of validator 0 with empty justification. -/
def cxA : Msg ℕ := .mk 0 10 []

/-- A conflicting message of validator 0 with empty justification
(incomparable with `cxA` under `depends`). -/
def cxB : Msg ℕ := .mk 0 20 []

/-- A message of validator 1 with empty justification. -/
def cxC : Msg ℕ := .mk 1 30 []

/-- A zero-threshold state in which validator 0 (weight 1) has tip `cxB`
and no equivocator is known. -/
def cxS : VState ℕ := ⟨0, 0, [(0, 1)], [(0, [cxB])], []⟩

/-- The state `cxS` with validator 0 already recorded as an equivocator. -/
def cxSEq : VState ℕ := ⟨0, 0, [(0, 1)], [(0, [cxB])], [0]⟩

/-- An empty state with an empty weights map. -/
def cxSEmpty : VState ℕ := ⟨0, 0, [], [], []⟩

/-! ## C1 — case analysis of `faulty_insert` -/

/-- C1 (counterexample).  The claim asserts that `faulty_insert` admits a
message whenever it does not equivocate with the state's latest messages,
appending it to the justification.  But when the message is already
contained in the justification, `Justification::insert` refuses and
`faulty_insert` returns false: here `cxA` does not equivocate with the
latest messages of the empty state, yet inserting it into the
justification `[cxA]` is refused. -/
theorem c1_counterexample :
    equivocateLM cxSEmpty.latest cxA = false ∧
    faultyInsert cxA [cxA] cxSEmpty = (false, [cxA], cxSEmpty) := by
  decide

/-- C1 (amended): provided the candidate message is not already contained
in the justification, `faulty_insert` admits it (appending it and
updating the latest messages) when it does not equivocate or when its
sender is already a recorded equivocator; when it newly equivocates and
`w + fault ≤ thr` (weight `w` read from the weights map, `+∞` when
absent, equality admitting) it admits, records the sender as an
equivocator and adds `w` to the fault weight, leaving threshold and
weights map unchanged; otherwise it refuses and returns false. -/
theorem c1_faulty_insert_cases {E : Type} [DecidableEq E] (m : Msg E)
    (j : List (Msg E)) (S : VState E) (hnotin : m ∉ j) :
    ((equivocateLM S.latest m = false ∨ m.sender ∈ S.equiv) →
      faultyInsert m j S =
        (true, j ++ [m], { S with latest := (updateLM S.latest m).1 })) ∧
    (equivocateLM S.latest m = true → m.sender ∉ S.equiv →
      (((lookupW S.weights m.sender).getD ⊤ + S.fault ≤ S.thr →
        faultyInsert m j S =
          (true, j ++ [m],
            { S with latest := (updateLM S.latest m).1,
                     equiv := m.sender :: S.equiv,
                     fault := S.fault + (lookupW S.weights m.sender).getD ⊤ })) ∧
       (¬((lookupW S.weights m.sender).getD ⊤ + S.fault ≤ S.thr) →
        faultyInsert m j S = (false, j, S)))) := by
  unfold faultyInsert faultyInsertCore
  simp only [insertJ, if_neg hnotin, insertV]
  refine ⟨?_, ?_⟩
  · rintro (hEq | hIn)
    · rw [hEq]
      rcases h : decide (m.sender ∈ S.equiv) <;> simp
    · rw [decide_eq_true hIn]
      rcases h : equivocateLM S.latest m <;> simp
  · intro hEq hNin
    rw [hEq, decide_eq_false hNin]
    constructor
    · intro hle
      rw [if_pos hle]
      simp [if_neg hNin]
    · intro hgt
      rw [if_neg hgt]

/-- C1 (witness): the amended case analysis applied to a concrete
admission of `cxA` into an empty justification of the empty state. -/
theorem c1_witness :
    faultyInsert cxA [] cxSEmpty =
      (true, [cxA], { cxSEmpty with latest := (updateLM cxSEmpty.latest cxA).1 }) :=
  (c1_faulty_insert_cases cxA [] cxSEmpty (by decide)).1 (Or.inl (by decide))

/-! ## C6 — refusal leaves the state untouched -/

/-- C6: whenever `faulty_insert` returns false, nothing was mutated: the
justification, the latest messages, the equivocator set and the fault
weight are returned exactly as they were. -/
theorem c6_refusal_no_mutation {E : Type} [DecidableEq E] (m : Msg E)
    (j : List (Msg E)) (S : VState E)
    (h : (faultyInsert m j S).1 = false) :
    faultyInsert m j S = (false, j, S) := by
  unfold faultyInsert faultyInsertCore at h ⊢
  rcases hE : equivocateLM S.latest m with _ | _ <;>
    rcases hA : decide (m.sender ∈ S.equiv) with _ | _ <;>
    simp only [hE, hA, insertJ, insertV] at h ⊢ <;>
    split_ifs at h ⊢ <;> simp_all

/-- C6 (witness): a concrete refusal — the over-threshold equivocation
`cxA` against the zero-threshold state `cxS` — returns the untouched
justification and state. -/
theorem c6_witness : faultyInsert cxA [] cxS = (false, [], cxS) :=
  c6_refusal_no_mutation cxA [] cxS (by decide)

/-! ## C8 — admission of a message with empty justification -/

/-- C8 (counterexample).  The claim asserts that a message with empty
justification is admitted iff its sender has no prior equivocation in the
state.  But a sender already recorded as an equivocator is admitted
without any check: `cxA` (empty justification) equivocates with the prior
tip `cxB` of validator 0 in `cxSEq`, yet it is admitted. -/
theorem c8_counterexample :
    cxA.just = [] ∧
    equivocateLM cxSEq.latest cxA = true ∧
    (faultyInsert cxA [] cxSEq).1 = true := by
  decide

/-- C8 (amended): a message with empty justification is admitted iff it is
not already in the justification and either its sender has no prior
equivocation in the state, or the sender is already a recorded
equivocator, or the sender's weight plus the current fault weight is
within the threshold. -/
theorem c8_empty_justification_admission {E : Type} [DecidableEq E]
    (m : Msg E) (j : List (Msg E)) (S : VState E) (hj : m.just = []) :
    (faultyInsert m j S).1 = true ↔
      (m ∉ j ∧
        (equivocateLM S.latest m = false ∨ m.sender ∈ S.equiv ∨
          (lookupW S.weights m.sender).getD ⊤ + S.fault ≤ S.thr)) := by
  unfold faultyInsert faultyInsertCore
  rcases hE : equivocateLM S.latest m with _ | _ <;>
    rcases hA : decide (m.sender ∈ S.equiv) with _ | _ <;>
    [have hA' := of_decide_eq_false hA; have hA' := of_decide_eq_true hA;
     have hA' := of_decide_eq_false hA; have hA' := of_decide_eq_true hA] <;>
    simp only [hE, hA, insertJ, insertV] <;>
    split_ifs <;> simp_all

/-- C8 (witness): the amended biconditional applied to the concrete
equivocation `cxA` (empty justification) against the zero-threshold state
`cxS`. -/
theorem c8_witness :
    (faultyInsert cxA [] cxS).1 = true ↔
      (cxA ∉ ([] : List (Msg ℕ)) ∧
        (equivocateLM cxS.latest cxA = false ∨ cxA.sender ∈ cxS.equiv ∨
          (lookupW cxS.weights cxA.sender).getD ⊤ + cxS.fault ≤ cxS.thr)) :=
  c8_empty_justification_admission cxA [] cxS (by decide)

/-! ## C9 — frame conditions of `faulty_insert_with_slash` -/

/-- Frame characterization of `faulty_insert_with_slash` (shared
helper). -/
theorem slashFrame {E : Type} [DecidableEq E] (m : Msg E)
    (j : List (Msg E)) (S : VState E) :
    (faultyInsertWithSlash m j S).2.2.fault = S.fault ∧
    (faultyInsertWithSlash m j S).2.2.thr = S.thr ∧
    (faultyInsertWithSlash m j S).2.2.equiv =
      (if equivocateLM S.latest m = true then (insertV m.sender S.equiv).1
       else S.equiv) ∧
    (faultyInsertWithSlash m j S).2.2.weights =
      (if equivocateLM S.latest m = true then insertW S.weights m.sender 0
       else S.weights) ∧
    (faultyInsertWithSlash m j S).2.2.latest = (updateLM S.latest m).1 ∧
    (faultyInsertWithSlash m j S).2.1 = (insertJ m j).1 ∧
    (faultyInsertWithSlash m j S).1 = (insertJ m j).2 := by
  unfold faultyInsertWithSlash
  rcases hE : equivocateLM S.latest m with _ | _ <;> simp [hE]

/-- C9: `faulty_insert_with_slash` never touches the fault-weight counter
or the threshold; on equivocation (and only then) it adds the sender to
the equivocators and writes weight zero for it into the shared weights
map; it always pushes the message through `LatestMsgs::update` and
inserts it into the justification. -/
theorem c9_slash_frame {E : Type} [DecidableEq E] (m : Msg E)
    (j : List (Msg E)) (S : VState E) :
    (faultyInsertWithSlash m j S).2.2.fault = S.fault ∧
    (faultyInsertWithSlash m j S).2.2.thr = S.thr ∧
    (faultyInsertWithSlash m j S).2.2.equiv =
      (if equivocateLM S.latest m = true then (insertV m.sender S.equiv).1
       else S.equiv) ∧
    (faultyInsertWithSlash m j S).2.2.weights =
      (if equivocateLM S.latest m = true then insertW S.weights m.sender 0
       else S.weights) ∧
    (faultyInsertWithSlash m j S).2.2.latest = (updateLM S.latest m).1 ∧
    (faultyInsertWithSlash m j S).2.1 = (insertJ m j).1 ∧
    (faultyInsertWithSlash m j S).1 = (insertJ m j).2 :=
  slashFrame m j S

/-! ## C2 — the fault-budget invariant -/

/-- Relation between a pre-state, a post-state and the inclusion log of
one admission operation: the threshold is preserved, the fault weight
grows by exactly the logged weights, and the fault budget is not
exceeded. -/
def OkStep {E : Type} (S S' : VState E) (log : List EW) : Prop :=
  S'.thr = S.thr ∧ S'.fault = S.fault + log.sum ∧
    (S.fault ≤ S.thr → S'.fault ≤ S'.thr)

theorem okStep_comp {E : Type} {S S' S'' : VState E} {l l' : List EW}
    (h : OkStep S S' l) (h' : OkStep S' S'' l') : OkStep S S'' (l ++ l') := by
  obtain ⟨ht, hf, hle⟩ := h
  obtain ⟨ht', hf', hle'⟩ := h'
  refine ⟨ht'.trans ht, ?_, fun h0 => hle' (hle h0)⟩
  rw [hf', hf, List.sum_append, add_assoc]

theorem okStep_rfl {E : Type} (S : VState E) : OkStep S S [] :=
  ⟨rfl, by simp, fun h => h⟩

theorem faultyInsertCore_okStep {E : Type} [DecidableEq E] (m : Msg E)
    (j : List (Msg E)) (S : VState E) :
    OkStep S (faultyInsertCore m j S).2.2.1 (faultyInsertCore m j S).2.2.2 := by
  unfold faultyInsertCore
  rcases hE : equivocateLM S.latest m with _ | _ <;>
    rcases hA : decide (m.sender ∈ S.equiv) with _ | _ <;>
    simp only [hE, hA, insertJ, insertV] <;>
    split_ifs <;>
    first
      | exact ⟨rfl, by simp, fun h0 => h0⟩
      | (refine ⟨rfl, by simp, fun h0 => ?_⟩
         calc S.fault + (lookupW S.weights m.sender).getD ⊤
             = (lookupW S.weights m.sender).getD ⊤ + S.fault := add_comm _ _
           _ ≤ S.thr := by assumption)

theorem faultyInsertWithSlash_okStep {E : Type} [DecidableEq E] (m : Msg E)
    (j : List (Msg E)) (S : VState E) :
    OkStep S (faultyInsertWithSlash m j S).2.2 [] := by
  refine ⟨(slashFrame m j S).2.1, ?_, fun h0 => ?_⟩
  · rw [(slashFrame m j S).1]; simp
  · rw [(slashFrame m j S).1, (slashFrame m j S).2.1]; exact h0

theorem stateUpdateStep_okStep {E : Type} [DecidableEq E] (m : Msg E)
    (S : VState E) :
    OkStep S (stateUpdateStep S m).1 (stateUpdateStep S m).2.2 := by
  unfold stateUpdateStep
  dsimp only
  split_ifs with hcond hnew
  · refine ⟨rfl, by simp, fun h0 => ?_⟩
    rw [Bool.and_eq_true] at hcond
    have hle := of_decide_eq_true hcond.2
    calc S.fault + (lookupW S.weights m.sender).getD ⊤
        = (lookupW S.weights m.sender).getD ⊤ + S.fault := add_comm _ _
      _ ≤ S.thr := hle
  · exact ⟨rfl, by simp, fun h0 => h0⟩
  · exact ⟨rfl, by simp, fun h0 => h0⟩

theorem updateFold_ok {E : Type} [DecidableEq E] (ms : List (Msg E)) :
    ∀ (S : VState E) (b : Bool) (log0 : List EW),
      ∃ l,
        (ms.foldl
          (fun st m =>
            let r := stateUpdateStep st.1 m
            (r.1, st.2.1 && r.2.1, st.2.2 ++ r.2.2))
          (S, b, log0)).2.2 = log0 ++ l ∧
        OkStep S
          (ms.foldl
            (fun st m =>
              let r := stateUpdateStep st.1 m
              (r.1, st.2.1 && r.2.1, st.2.2 ++ r.2.2))
            (S, b, log0)).1 l := by
  induction ms with
  | nil => exact fun S b log0 => ⟨[], by simp, okStep_rfl S⟩
  | cons m t ih =>
    intro S b log0
    obtain ⟨l', hl', hok'⟩ :=
      ih (stateUpdateStep S m).1 (b && (stateUpdateStep S m).2.1)
        (log0 ++ (stateUpdateStep S m).2.2)
    refine ⟨(stateUpdateStep S m).2.2 ++ l', ?_, ?_⟩
    · simpa [List.append_assoc] using hl'
    · exact okStep_comp (stateUpdateStep_okStep m S) hok'

theorem stateUpdate_okStep {E : Type} [DecidableEq E] (ms : List (Msg E))
    (S : VState E) :
    OkStep S (stateUpdate ms S).1 (stateUpdate ms S).2.2 := by
  obtain ⟨l, hl, hok⟩ := updateFold_ok ms S true []
  unfold stateUpdate
  rw [hl]
  exact hok

theorem insertsFold_ok {E : Type} [DecidableEq E] (ms : List (Msg E)) :
    ∀ (adm j : List (Msg E)) (S : VState E) (log0 : List EW),
      ∃ l,
        (ms.foldl
          (fun st m =>
            let r := faultyInsertCore m st.2.1 st.2.2.1
            (if r.1 then st.1 ++ [m] else st.1, r.2.1, r.2.2.1, st.2.2.2 ++ r.2.2.2))
          (adm, j, S, log0)).2.2.2 = log0 ++ l ∧
        OkStep S
          (ms.foldl
            (fun st m =>
              let r := faultyInsertCore m st.2.1 st.2.2.1
              (if r.1 then st.1 ++ [m] else st.1, r.2.1, r.2.2.1, st.2.2.2 ++ r.2.2.2))
            (adm, j, S, log0)).2.2.1 l := by
  induction ms with
  | nil => exact fun adm j S log0 => ⟨[], by simp, okStep_rfl S⟩
  | cons m t ih =>
    intro adm j S log0
    obtain ⟨l', hl', hok'⟩ :=
      ih (if (faultyInsertCore m j S).1 then adm ++ [m] else adm)
        (faultyInsertCore m j S).2.1 (faultyInsertCore m j S).2.2.1
        (log0 ++ (faultyInsertCore m j S).2.2.2)
    refine ⟨(faultyInsertCore m j S).2.2.2 ++ l', ?_, ?_⟩
    · simpa [List.append_assoc] using hl'
    · exact okStep_comp (faultyInsertCore_okStep m j S) hok'

theorem faultyInsertsCore_okStep {E : Type} [DecidableEq E] (encE : E → ℕ)
    (ms j : List (Msg E)) (S : VState E) :
    OkStep S (faultyInsertsCore encE ms j S).2.2.1
      (faultyInsertsCore encE ms j S).2.2.2 := by
  obtain ⟨l, hl, hok⟩ := insertsFold_ok (sortByFaultweight encE S ms) [] j S []
  unfold faultyInsertsCore
  rw [hl]
  exact hok

theorem applyOp_okStep {E : Type} [DecidableEq E] (encE : E → ℕ)
    (op : AdmOp E) (S : VState E) :
    OkStep S (applyOp encE op S) (opLog encE false op S) := by
  cases op with
  | finsert m j => exact faultyInsertCore_okStep m j S
  | finserts ms j => exact faultyInsertsCore_okStep encE ms j S
  | slash m j =>
    have h := faultyInsertWithSlash_okStep m j S
    simpa [opLog] using h
  | supdate ms => exact stateUpdate_okStep ms S

theorem runOps_okStep {E : Type} [DecidableEq E] (encE : E → ℕ)
    (ops : List (AdmOp E)) :
    ∀ S : VState E, OkStep S (runOps encE ops S) (runLog encE false ops S) := by
  induction ops with
  | nil => exact fun S => okStep_rfl S
  | cons op t ih =>
    intro S
    exact okStep_comp (applyOp_okStep encE op S) (ih (applyOp encE op S))

/-- C2 (counterexample).  The claim asserts that in every reachable state
the fault weight equals the sum of the equivocator weights measured at
inclusion time.  A single `faulty_insert_with_slash` call refutes this:
starting from the clean state `cxS` (no equivocators, fault weight 0),
slashing the equivocation `cxA` includes validator 0 — whose weight at
the time of the call is 1 — yet leaves the fault weight at 0. -/
theorem c2_counterexample :
    ¬(∀ (ops : List (AdmOp ℕ)) (S0 : VState ℕ), S0.fault ≤ S0.thr →
        (runOps id ops S0).fault ≤ (runOps id ops S0).thr ∧
        (runOps id ops S0).fault =
          S0.fault + (runLog id true ops S0).sum) := by
  intro h
  have hc := (h [AdmOp.slash cxA []] cxS (by decide)).2
  revert hc
  decide

/-- C2 (amended): starting from any state whose fault weight is within the
threshold, any sequence of the admission operations `faulty_insert`,
`faulty_inserts`, `faulty_insert_with_slash` and `State::update` keeps
`state_fault_weight ≤ thr`, and the fault weight grows by exactly the sum
of the weights recorded for the equivocators admitted through the
fault-budget paths; equivocators included by `faulty_insert_with_slash`
contribute nothing (their weight is zeroed by the including call). -/
theorem c2_fault_budget {E : Type} [DecidableEq E] (encE : E → ℕ)
    (ops : List (AdmOp E)) (S0 : VState E) (h : S0.fault ≤ S0.thr) :
    (runOps encE ops S0).fault ≤ (runOps encE ops S0).thr ∧
    (runOps encE ops S0).fault = S0.fault + (runLog encE false ops S0).sum :=
  ⟨(runOps_okStep encE ops S0).2.2 h, (runOps_okStep encE ops S0).2.1⟩

/-- C2 (witness): the amended budget invariant applied to a concrete run
(a refused equivocation followed by a slash and an honest update). -/
theorem c2_witness :
    (runOps id [AdmOp.finsert cxA [], AdmOp.slash cxA [], AdmOp.supdate [cxC]]
        cxS).fault ≤
      (runOps id [AdmOp.finsert cxA [], AdmOp.slash cxA [], AdmOp.supdate [cxC]]
        cxS).thr ∧
    (runOps id [AdmOp.finsert cxA [], AdmOp.slash cxA [], AdmOp.supdate [cxC]]
        cxS).fault =
      cxS.fault +
        (runLog id false [AdmOp.finsert cxA [], AdmOp.slash cxA [],
          AdmOp.supdate [cxC]] cxS).sum :=
  c2_fault_budget id _ cxS (by decide)

/-! ## C10 — tip sets installed by `LatestMsgs::update` are never empty -/

/-- Constructor `LatestMsgs::empty`. -/
def emptyLM {E : Type} : LatestM E := []

theorem getLM_setLM {E : Type} (lm : LatestM E) (v : V) (s : List (Msg E))
    (k : V) :
    getLM (setLM lm v s) k = if k = v then some s else getLM lm k := by
  induction lm with
  | nil =>
    by_cases hk : k = v
    · simp [setLM, getLM, List.lookup, hk]
    · simp [setLM, getLM, List.lookup, hk, Ne.symm hk,
        show (k == v) = false from decide_eq_false hk]
  | cons p t ih =>
    obtain ⟨a, x⟩ := p
    by_cases ha : a = v
    · subst ha
      by_cases hk : k = a
      · subst hk; simp [setLM, getLM, List.lookup]
      · simp [setLM, getLM, List.lookup,
          show (k == a) = false from decide_eq_false hk, hk]
    · by_cases hk : k = a
      · subst hk
        simp [setLM, getLM, List.lookup, if_neg ha, Ne.symm ha]
      · simp only [setLM, if_neg ha, getLM, List.lookup,
          show (k == a) = false from decide_eq_false hk]
        exact ih

/-- Invariant of the latest-messages map: every installed tip set is
non-empty (so the latest-honest projection's singleton extraction is
well-defined). -/
def nonemptyTips {E : Type} (lm : LatestM E) : Prop :=
  ∀ v s, getLM lm v = some s → s ≠ []

theorem nonemptyTips_updateLM {E : Type} [DecidableEq E] {lm : LatestM E}
    (h : nonemptyTips lm) (m : Msg E) : nonemptyTips (updateLM lm m).1 := by
  unfold updateLM
  cases hget : getLM lm m.sender with
  | none =>
    intro v s hv
    rw [getLM_setLM] at hv
    split at hv
    · cases hv; simp
    · exact h v s hv
  | some T =>
    have step :
        ∀ (olds : List (Msg E)) (st : LatestM E × Bool),
          nonemptyTips st.1 →
          nonemptyTips
            ((olds.foldl
              (fun st old =>
                let lm' := st.1
                let acc := st.2
                let newIndependentFromOld := !(depends m old)
                if newIndependentFromOld && !(depends old m) then
                  match getLM lm' m.sender with
                  | some s =>
                    let si := insertS m s
                    (setLM lm' m.sender si.1, si.2 || acc)
                  | none => (lm', false || acc)
                else if newIndependentFromOld then (lm', acc)
                else
                  match getLM lm' m.sender with
                  | some s =>
                    let sr := removeS old s
                    if sr.2 then
                      let si := insertS m sr.1
                      (setLM lm' m.sender si.1, si.2 || acc)
                    else (setLM lm' m.sender sr.1, false || acc)
                  | none => (lm', false || acc)) st)).1 := by
      intro olds
      induction olds with
      | nil => exact fun st hst => hst
      | cons old t ih =>
        intro st hst
        rw [List.foldl_cons]
        apply ih
        dsimp only
        split_ifs with h1 h2
        · cases hs : getLM st.1 m.sender with
          | none => simpa [hs] using hst
          | some s =>
            simp only [hs]
            intro v u hv
            rw [getLM_setLM] at hv
            split at hv
            · cases hv
              unfold insertS
              split_ifs with hm
              · exact hst _ _ hs
              · simp
            · exact hst v u hv
        · exact hst
        · cases hs : getLM st.1 m.sender with
          | none => simpa [hs] using hst
          | some s =>
            simp only [hs]
            split_ifs with hr
            · intro v u hv
              rw [getLM_setLM] at hv
              split at hv
              · cases hv
                unfold insertS
                split_ifs with hm
                · intro hnil
                  rw [hnil] at hm
                  cases hm
                · simp
              · exact hst v u hv
            · intro v u hv
              rw [getLM_setLM] at hv
              split at hv
              · cases hv
                unfold removeS at hr ⊢
                split_ifs at hr ⊢
                · cases hr rfl
                · exact hst _ _ hs
              · exact hst v u hv
    exact step _ (lm, false) h

/-- C10: in every latest-messages map reachable from `empty()` by a
sequence of `update` calls, every validator present as a key maps to a
non-empty tip set, so the latest-honest projection's cardinality-one test
and singleton extraction are well-defined. -/
theorem c10_update_nonempty {E : Type} [DecidableEq E] (ms : List (Msg E))
    (v : V) (s : List (Msg E))
    (h : getLM (ms.foldl (fun lm m => (updateLM lm m).1) emptyLM) v = some s) :
    s ≠ [] := by
  have main :
      ∀ (ms : List (Msg E)) (lm : LatestM E), nonemptyTips lm →
        nonemptyTips (ms.foldl (fun lm m => (updateLM lm m).1) lm) := by
    intro ms
    induction ms with
    | nil => exact fun lm h0 => h0
    | cons m t ih => exact fun lm h0 => ih _ (nonemptyTips_updateLM h0 m)
  exact main ms emptyLM (fun v s hv => by cases hv) v s h

/-- C10 (witness): the invariant applied to the concrete two-message
equivocation history of validator 0. -/
theorem c10_witness : ([cxB, cxA] : List (Msg ℕ)) ≠ [] :=
  c10_update_nonempty [cxA, cxB] 0 [cxB, cxA] (by decide)

/-! ## C5 — `State::sort_by_faultweight` -/

/-- A state whose weights map is empty while validator 0 has tip `cxB`:
a newly-equivocating message from validator 0 has no defined sort key. -/
def cxSNoW : VState ℕ := ⟨0, 10, [], [(0, [cxB])], []⟩

/-- C5 (counterexample).  The claim asserts the result is a permutation of
the input set.  But the source's `filter_map` silently drops a message
that would newly equivocate when its sender is absent from the weights
map: here the input `[cxA]` (an equivocation against `cxB` by validator
0, who has no weight entry) sorts to the empty list. -/
theorem c5_counterexample :
    equivocateLM cxSNoW.latest cxA = true ∧
    lookupW cxSNoW.weights cxA.sender = none ∧
    sortByFaultweight id cxSNoW [cxA] = [] ∧
    ¬(sortByFaultweight id cxSNoW [cxA]).Perm [cxA] := by
  refine ⟨by decide, by decide, by decide, fun hp => ?_⟩
  have := hp.length_eq
  revert this
  decide

/-- Order on messages induced by the sort: both have defined keys and the
keys are in ascending order, ties broken by ascending id. -/
def sbfRel {E : Type} [DecidableEq E] (encE : E → ℕ) (S : VState E)
    (m₀ m₁ : Msg E) : Prop :=
  ∃ w₀ w₁, faultKeyOpt S m₀ = some w₀ ∧ faultKeyOpt S m₁ = some w₁ ∧
    (w₀ < w₁ ∨ (w₀ = w₁ ∧ mid encE m₀ ≤ mid encE m₁))

instance sbfLe_total {E : Type} (encE : E → ℕ) :
    IsTotal (Msg E × EW) (sbfLe encE) :=
  ⟨fun p q => by
    rcases lt_trichotomy p.2 q.2 with h | h | h
    · exact Or.inl (Or.inl h)
    · rcases le_total (mid encE p.1) (mid encE q.1) with hm | hm
      · exact Or.inl (Or.inr ⟨h, hm⟩)
      · exact Or.inr (Or.inr ⟨h.symm, hm⟩)
    · exact Or.inr (Or.inl h)⟩

instance sbfLe_trans {E : Type} (encE : E → ℕ) :
    IsTrans (Msg E × EW) (sbfLe encE) :=
  ⟨fun p q r hpq hqr => by
    rcases hpq with h1 | ⟨h1, h1'⟩ <;> rcases hqr with h2 | ⟨h2, h2'⟩
    · exact Or.inl (h1.trans h2)
    · exact Or.inl (h2 ▸ h1)
    · exact Or.inl (h1 ▸ h2)
    · exact Or.inr ⟨h1.trans h2, h1'.trans h2'⟩⟩

/-- C5 (amended): `sort_by_faultweight` returns a permutation of the
retained input messages — those that would not newly equivocate (key 0)
together with the newly-equivocating ones whose sender has a known weight
(key = that weight); messages from unknown-weight newly-equivocating
senders are dropped.  The output is sorted ascending by key, with ties
broken by the ascending total order on message ids. -/
theorem c5_sort_by_faultweight {E : Type} [DecidableEq E] (encE : E → ℕ)
    (S : VState E) (msgs : List (Msg E)) :
    (sortByFaultweight encE S msgs).Perm
      ((msgs.filterMap fun m => (faultKeyOpt S m).map fun w => (m, w)).map
        Prod.fst) ∧
    List.Pairwise (sbfRel encE S) (sortByFaultweight encE S msgs) := by
  constructor
  · exact (List.perm_insertionSort (sbfLe encE) _).map Prod.fst
  · have hsorted :
        List.Pairwise (sbfLe encE) (sortByFaultweightKeyed encE S msgs) :=
      List.sorted_insertionSort (sbfLe encE) _
    have hkey : ∀ p ∈ sortByFaultweightKeyed encE S msgs,
        faultKeyOpt S p.1 = some p.2 := by
      intro p hp
      have hp' :
          p ∈ msgs.filterMap fun m => (faultKeyOpt S m).map fun w => (m, w) :=
        ((List.perm_insertionSort (sbfLe encE) _).mem_iff).mp hp
      obtain ⟨m, -, hm⟩ := List.mem_filterMap.mp hp'
      obtain ⟨w, hw, hmw⟩ := Option.map_eq_some'.mp hm
      rw [← hmw]
      exact hw
    unfold sortByFaultweight
    rw [List.pairwise_map]
    exact hsorted.imp_of_mem fun {a b} ha hb hab =>
      ⟨a.2, b.2, hkey a ha, hkey b hb, hab⟩

/-! ## C7 — message identity

The identifier layer of `message::Message` is modelled with the stored id
made explicit: `Message::new` stores either the caller-supplied id or the
content digest of `(sender, estimate, sorted justification ids)` (the
serializer sorts the justification ids ascending).  The digest `H` is
modelled by the injective encoding `hashProto`; `PartialEq` compares
stored ids (the `Arc::ptr_eq` short-circuit only relates a message to
itself — bitwise the same record, hence the same stored id — so it cannot
change the relation). -/

/-- Digest of the serialized proto-message. -/
def hashProto (s e : ℕ) (justIds : List ℕ) : ℕ :=
  Nat.pair s (Nat.pair e (encList (sortNat justIds)))

/-- A message together with its stored identifier (`Message(Arc<ProtoMsg>, Hashed)`). -/
inductive MsgR where
  | mk (sender : ℕ) (est : ℕ) (just : List MsgR) (storedId : ℕ) : MsgR

namespace MsgR

/-- Accessor for the sender. -/
def sender : MsgR → ℕ
  | .mk s _ _ _ => s

/-- Accessor for the estimate. -/
def est : MsgR → ℕ
  | .mk _ e _ _ => e

/-- Accessor for the justification. -/
def just : MsgR → List MsgR
  | .mk _ _ j _ => j

/-- Accessor for the stored identifier (`Message::id`). -/
def storedId : MsgR → ℕ
  | .mk _ _ _ i => i

end MsgR

/-- Constructor `Message::new`: the stored id is the supplied one, or the
content digest when none is supplied. -/
def msgNew (s e : ℕ) (j : List MsgR) (idOpt : Option ℕ) : MsgR :=
  .mk s e j (idOpt.getD (hashProto s e (j.map MsgR.storedId)))

/-- Equality test of `PartialEq for Message`: comparison of the ids (after
the pointer short-circuit, which is absorbed by it). -/
def eqR (a b : MsgR) : Bool :=
  a.storedId == b.storedId

theorem encList_injective : Function.Injective encList := by
  intro l₁
  induction l₁ with
  | nil =>
    intro l₂ h
    cases l₂ with
    | nil => rfl
    | cons b t => simp [encList] at h
  | cons a t ih =>
    intro l₂ h
    cases l₂ with
    | nil => simp [encList] at h
    | cons b u =>
      simp only [encList, add_left_inj] at h
      obtain ⟨h1, h2⟩ := Nat.pair_eq_pair.mp h
      rw [h1, ih h2]

theorem sortNat_eq_iff_perm {l₁ l₂ : List ℕ} :
    sortNat l₁ = sortNat l₂ ↔ l₁.Perm l₂ := by
  unfold sortNat
  constructor
  · intro h
    have h₁ := (List.perm_insertionSort (· ≤ ·) l₁).symm
    rw [h] at h₁
    exact h₁.trans (List.perm_insertionSort (· ≤ ·) l₂)
  · intro h
    exact List.eq_of_perm_of_sorted
      (((List.perm_insertionSort _ _).trans h).trans
        (List.perm_insertionSort _ _).symm)
      (List.sorted_insertionSort _ _) (List.sorted_insertionSort _ _)

/-- C7 (counterexample).  The claim quantifies over every way messages can
be constructed through the public constructor; but `Message::new` accepts
a caller-supplied id, and two messages built with the same supplied id
and different estimates are equal (`==`, id equality) while their
`(sender, estimate, justification ids)` tuples differ. -/
theorem c7_counterexample :
    eqR (msgNew 0 1 [] (some 5)) (msgNew 0 2 [] (some 5)) = true ∧
    (msgNew 0 1 [] (some 5)).est ≠ (msgNew 0 2 [] (some 5)).est := by
  decide

/-- C7 (amended): for messages whose ids are content-derived (constructor
called with no id override) and whose justifications carry no duplicate
ids, equality is id equality, and ids are equal iff the tuples
`(sender, estimate, set of justification-message ids)` are equal. -/
theorem c7_identity (s₁ e₁ s₂ e₂ : ℕ) (j₁ j₂ : List MsgR)
    (h₁ : (j₁.map MsgR.storedId).Nodup) (h₂ : (j₂.map MsgR.storedId).Nodup) :
    (eqR (msgNew s₁ e₁ j₁ none) (msgNew s₂ e₂ j₂ none) = true ↔
      (msgNew s₁ e₁ j₁ none).storedId = (msgNew s₂ e₂ j₂ none).storedId) ∧
    ((msgNew s₁ e₁ j₁ none).storedId = (msgNew s₂ e₂ j₂ none).storedId ↔
      (s₁ = s₂ ∧ e₁ = e₂ ∧
        (j₁.map MsgR.storedId).toFinset = (j₂.map MsgR.storedId).toFinset)) := by
  constructor
  · simp [eqR]
  · show hashProto s₁ e₁ (j₁.map MsgR.storedId) =
        hashProto s₂ e₂ (j₂.map MsgR.storedId) ↔ _
    unfold hashProto
    rw [Nat.pair_eq_pair, Nat.pair_eq_pair]
    constructor
    · rintro ⟨hs, he, hids⟩
      refine ⟨hs, he, ?_⟩
      have hperm := sortNat_eq_iff_perm.mp (encList_injective hids)
      exact List.toFinset_eq_of_perm _ _ hperm
    · rintro ⟨hs, he, hset⟩
      refine ⟨hs, he, ?_⟩
      have hperm : (j₁.map MsgR.storedId).Perm (j₂.map MsgR.storedId) := by
        apply List.perm_of_nodup_nodup_toFinset_eq h₁ h₂ hset
      rw [sortNat_eq_iff_perm.mpr hperm]

/-- C7 (witness): the amended identity chain applied to two content-derived
messages carrying the same justification set in opposite orders. -/
theorem c7_witness :
    (msgNew 0 7 [msgNew 1 1 [] none, msgNew 2 2 [] none] none).storedId =
      (msgNew 0 7 [msgNew 2 2 [] none, msgNew 1 1 [] none] none).storedId :=
  (c7_identity 0 7 0 7 [msgNew 1 1 [] none, msgNew 2 2 [] none]
      [msgNew 2 2 [] none, msgNew 1 1 [] none] (by decide) (by decide)).2.mpr
    ⟨rfl, rfl, by decide⟩

/-! ## Blocks and the GHOST fork choice (`example::blockchain`)

A `Block` is `(prevblock, sender)` content-addressed; its digest is
modelled by the injective encoding `bid` (the total order on digests is
the order on `ℕ`).  Blockchain weights (`SendersWeight`, an earlier name
of `validator::Weights`) are `ℤ`-valued with `Option` capturing the IEEE
NaN produced for a missing validator (`unwrap_or(NAN)` in
`sum_weight_senders`): comparisons with `none` are false, as for NaN. -/

/-- A block (`ProtoBlock { prevblock, sender }`): an optional previous
block and the sender that produced it, written with the two cases of the
option made explicit so that `prev` recovers the source field. -/
inductive Block where
  | gen (sender : V) : Block
  | ext (prev : Block) (sender : V) : Block
  deriving DecidableEq

namespace Block

/-- Constructor `Block::new` from the optional previous block. -/
def mkB (p : Option Block) (s : V) : Block :=
  match p with
  | none => .gen s
  | some b => .ext b s

/-- Accessor `Block::get_prevblock`. -/
def prev : Block → Option Block
  | .gen _ => none
  | .ext p _ => some p

/-- Accessor `Block::get_sender`. -/
def sender : Block → V
  | .gen s => s
  | .ext _ s => s

/-- Content digest of a block (`Block::id`), an injective encoding of
`(sender, prev)` where a missing previous block is encoded distinctly. -/
def bid : Block → ℕ
  | .gen s => Nat.pair s 0
  | .ext p s => Nat.pair s (bid p + 1)

theorem bid_injective : ∀ a b : Block, bid a = bid b → a = b := by
  intro a
  induction a with
  | gen s =>
    intro b
    cases b with
    | gen t =>
      intro h
      obtain ⟨h1, -⟩ := Nat.pair_eq_pair.mp h
      rw [h1]
    | ext q t =>
      intro h
      obtain ⟨-, h2⟩ := Nat.pair_eq_pair.mp h
      cases h2
  | ext p s ih =>
    intro b
    cases b with
    | gen t =>
      intro h
      obtain ⟨-, h2⟩ := Nat.pair_eq_pair.mp h
      cases h2
    | ext q t =>
      intro h
      obtain ⟨h1, h2⟩ := Nat.pair_eq_pair.mp h
      rw [h1, ih q (by omega)]

/-- Membership `Block::is_member`: equality or membership of the previous
chain, recursively. -/
def isMember : Block → Block → Bool
  | a, .gen s => decide (a = .gen s)
  | a, .ext p s => decide (a = .ext p s) || isMember a p

end Block

open Block

/-- NaN-aware strict comparison of summed weights: true only when both
sums are real numbers in the given order (any comparison with NaN is
false, as for `f64`). -/
def gtW : Option ℤ → Option ℤ → Bool
  | some x, some y => decide (y < x)
  | _, _ => false

/-- One step of the fork fold of `Block::pick_heaviest` (the `l > 1` arm):
compare the candidate's summed endorser weight (`wt`, the memoised
`sum_weight_senders` of `collect_validators`) against the best so far;
break ties towards the smaller block id; a tie against the initial
placeholder or between equal ids yields `None`, which poisons the fold. -/
def pickFoldStep (visited : List (Block × List Block)) (wt : Block → Option ℤ)
    (best : Option (Option Block × Option ℤ × List Block)) (b : Block) :
    Option (Option Block × Option ℤ × List Block) :=
  (best.bind fun bst => (visited.lookup b).map fun children => (bst, children)).bind
    fun bc =>
      let weight := wt b
      let res := some (some b, weight, bc.2)
      let bRes := some bc.1
      if gtW weight bc.1.2.1 then res
      else if gtW bc.1.2.1 weight then bRes
      else
        match bc.1.1 with
        | some bb =>
          if bid b < bid bb then res
          else if bid bb < bid b then bRes
          else none
        | none => none

/-- One level of `Block::pick_heaviest`: no candidate yields the initial
placeholder, a single candidate descends with weight zero, a fork runs
the comparison fold. -/
def pickHeaviestStep (blocks : List Block)
    (visited : List (Block × List Block)) (wt : Block → Option ℤ) :
    Option (Option Block × Option ℤ × List Block) :=
  match blocks with
  | [] => some (none, some 0, [])
  | [b] => (visited.lookup b).map fun children => (some b, some 0, children)
  | _ => blocks.foldl (pickFoldStep visited wt) (some (none, some 0, []))

/-- Full recursion of `Block::pick_heaviest`: pick the heaviest at this
level and recurse into its children until a leaf.  The fuel models the
call stack; on the children maps produced by `parse_blockchains` a fuel
of the map size suffices, and the source recursion diverges exactly when
every fuel is exhausted. -/
def pickHeaviest (visited : List (Block × List Block))
    (wt : Block → Option ℤ) :
    ℕ → List Block → Option (Option Block × Option ℤ × List Block)
  | 0, _ => none
  | fuel + 1, blocks =>
    (pickHeaviestStep blocks visited wt).bind fun r =>
      if r.2.2 = [] then some r else pickHeaviest visited wt fuel r.2.2

/-- Genesis block of the counterexample fork. -/
def cbG : Block := .gen 0

/-- First child of `cbG` (by validator 1). -/
def cbA : Block := .ext cbG 1

/-- Second child of `cbG` (by validator 2). -/
def cbB : Block := .ext cbG 2

/-- Children map of the counterexample fork: both children are leaves. -/
def cxVisited : List (Block × List Block) := [(cbA, []), (cbB, [])]

/-- Endorser weights of the counterexample fork: every subtree sums to
zero (e.g. all endorsing validators have weight 0 in the weights map). -/
def cxWt : Block → Option ℤ := fun _ => some 0

/-- C3 (counterexample).  The claim asserts that at a fork whose
candidates have equal maximal summed endorser weight the smaller-id block
is chosen, with `none` only for equal ids.  But when the equal maximal
weight is zero, the first candidate also ties with the fold's initial
placeholder, whose block is `None`, and the defensive arm poisons the
whole fold: the choice is `none` although the candidate ids differ. -/
theorem c3_counterexample :
    bid cbA ≠ bid cbB ∧
    cxWt cbA = cxWt cbB ∧
    pickHeaviestStep [cbA, cbB] cxVisited cxWt = none := by
  refine ⟨by decide, rfl, by decide⟩

/-- The fork-choice preference: `w` beats `b` either by strictly larger
summed endorser weight or, at equal weight, by smaller block id. -/
def pickDominates (wt : Block → Option ℤ) (w b : Block) : Prop :=
  gtW (wt w) (wt b) = true ∨ (wt b = wt w ∧ bid w < bid b)

theorem gtW_some {x y : Option ℤ} (h : gtW x y = true) :
    ∃ a b : ℤ, x = some a ∧ y = some b ∧ b < a := by
  cases x with
  | none => simp [gtW] at h
  | some a =>
    cases y with
    | none => simp [gtW] at h
    | some b => exact ⟨a, b, rfl, rfl, by simpa [gtW] using h⟩

theorem pickDominates_trans {wt : Block → Option ℤ} {a b c : Block}
    (hab : pickDominates wt a b) (hbc : pickDominates wt b c) :
    pickDominates wt a c := by
  rcases hab with hab | ⟨hab, hab'⟩ <;> rcases hbc with hbc | ⟨hbc, hbc'⟩
  · obtain ⟨x, y, hx, hy, hlt⟩ := gtW_some hab
    obtain ⟨y', z, hy', hz, hlt'⟩ := gtW_some hbc
    rw [hy] at hy'
    cases hy'
    exact Or.inl (by rw [hx, hz]; simpa [gtW] using hlt'.trans hlt)
  · exact Or.inl (by rw [hbc]; exact hab)
  · exact Or.inl (by rw [← hab]; exact hbc)
  · exact Or.inr ⟨hbc.trans hab, hab'.trans hbc'⟩

theorem pickDominates_irrefl {wt : Block → Option ℤ} {w w' : Block}
    (h1 : pickDominates wt w w') (h2 : pickDominates wt w' w) : False := by
  rcases h1 with h1 | ⟨h1, h1'⟩ <;> rcases h2 with h2 | ⟨h2, h2'⟩
  · obtain ⟨x, y, hx, hy, hlt⟩ := gtW_some h1
    obtain ⟨y', x', hy', hx', hlt'⟩ := gtW_some h2
    rw [hx] at hx'
    rw [hy] at hy'
    cases hx'
    cases hy'
    exact absurd (hlt.trans hlt') (lt_irrefl _)
  · obtain ⟨x, y, hx, hy, hlt⟩ := gtW_some h1
    rw [hx, hy] at h2
    cases h2
    exact absurd hlt (lt_irrefl _)
  · obtain ⟨x, y, hx, hy, hlt⟩ := gtW_some h2
    rw [hx, hy] at h1
    cases h1
    exact absurd hlt (lt_irrefl _)
  · exact absurd (h1'.trans h2') (lt_irrefl _)

theorem pickFold_char (visited : List (Block × List Block))
    (wt : Block → Option ℤ) :
    ∀ (rest : List Block) (c : Block) (ch : List Block),
      visited.lookup c = some ch →
      (∃ q : ℤ, 0 < q ∧ wt c = some q) →
      (∀ b ∈ rest,
        (∃ chb, visited.lookup b = some chb) ∧
        (∃ q : ℤ, 0 < q ∧ wt b = some q) ∧ bid b ≠ bid c) →
      rest.Pairwise (fun x y => bid x ≠ bid y) →
      ∃ w chw, w ∈ c :: rest ∧ visited.lookup w = some chw ∧
        rest.foldl (pickFoldStep visited wt) (some (some c, wt c, ch)) =
          some (some w, wt w, chw) ∧
        ∀ b ∈ c :: rest, b ≠ w → pickDominates wt w b := by
  intro rest
  induction rest with
  | nil =>
    intro c ch hch hc hrest hpw
    refine ⟨c, ch, List.mem_cons_self c [], hch, rfl, ?_⟩
    intro b hb hbne
    rcases List.mem_cons.mp hb with rfl | hb
    · exact absurd rfl hbne
    · cases hb
  | cons b rest' ih =>
    intro c ch hch hc hrest hpw
    obtain ⟨⟨chb, hchb⟩, ⟨qb, hqb0, hqb⟩, hbidne⟩ := hrest b (List.mem_cons_self b rest')
    obtain ⟨qc, hqc0, hqc⟩ := hc
    have hrest' : ∀ x ∈ rest',
        (∃ chx, visited.lookup x = some chx) ∧
        (∃ q : ℤ, 0 < q ∧ wt x = some q) ∧ bid x ≠ bid c :=
      fun x hx => hrest x (List.mem_cons_of_mem b hx)
    have hpw' : rest'.Pairwise (fun x y => bid x ≠ bid y) :=
      (List.pairwise_cons.mp hpw).2
    have hbne' : ∀ x ∈ rest', bid x ≠ bid b :=
      fun x hx => fun hxe => (List.pairwise_cons.mp hpw).1 x hx hxe.symm
    rw [List.foldl_cons]
    have hstep : pickFoldStep visited wt (some (some c, wt c, ch)) b =
        if gtW (wt b) (wt c) then some (some b, wt b, chb)
        else if gtW (wt c) (wt b) then some (some c, wt c, ch)
        else if bid b < bid c then some (some b, wt b, chb)
        else if bid c < bid b then some (some c, wt c, ch)
        else none := by
      unfold pickFoldStep
      rw [Option.some_bind, hchb, Option.map_some', Option.some_bind]
    rcases lt_trichotomy qb qc with hlt | heq | hgt
    · have g1 : gtW (wt b) (wt c) = false := by
        rw [hqb, hqc]; simpa [gtW] using not_lt.mpr hlt.le
      have g2 : gtW (wt c) (wt b) = true := by
        rw [hqb, hqc]; simpa [gtW] using hlt
      rw [hstep, g1, if_neg (by simp), if_pos (by rw [g2])]
      obtain ⟨w, chw, hwmem, hchw, hfold, hdom⟩ :=
        ih c ch hch ⟨qc, hqc0, hqc⟩ hrest' hpw'
      have hcdomb : pickDominates wt c b := Or.inl g2
      refine ⟨w, chw, ?_, hchw, hfold, ?_⟩
      · rcases List.mem_cons.mp hwmem with rfl | hw
        · exact List.mem_cons_self _ _
        · exact List.mem_cons_of_mem _ (List.mem_cons_of_mem _ hw)
      · intro x hx hxne
        rcases List.mem_cons.mp hx with rfl | hx
        · exact hdom x (List.mem_cons_self _ _) hxne
        · rcases List.mem_cons.mp hx with rfl | hx
          · rcases eq_or_ne c w with rfl | hwc
            · exact hcdomb
            · exact pickDominates_trans
                (hdom c (List.mem_cons_self _ _) hwc) hcdomb
          · exact hdom x (List.mem_cons_of_mem _ hx) hxne
    · have g1 : gtW (wt b) (wt c) = false := by
        rw [hqb, hqc]; simpa [gtW] using not_lt.mpr heq.le
      have g2 : gtW (wt c) (wt b) = false := by
        rw [hqb, hqc]; simpa [gtW] using not_lt.mpr heq.ge
      have hwtbc : wt b = wt c := by rw [hqb, hqc, heq]
      rcases lt_or_gt_of_ne (fun hxe => hbidne hxe) with hbid | hbid
      · -- new candidate has the smaller id: it becomes the best
        rw [hstep, g1, if_neg (by simp), if_neg (by rw [g2]; simp),
          if_pos hbid]
        obtain ⟨w, chw, hwmem, hchw, hfold, hdom⟩ :=
          ih b chb hchb ⟨qb, hqb0, hqb⟩
            (fun x hx => ⟨(hrest' x hx).1, (hrest' x hx).2.1, hbne' x hx⟩) hpw'
        have hbdomc : pickDominates wt b c := Or.inr ⟨hwtbc.symm, hbid⟩
        refine ⟨w, chw, ?_, hchw, hfold, ?_⟩
        · rcases List.mem_cons.mp hwmem with rfl | hw
          · exact List.mem_cons_of_mem _ (List.mem_cons_self _ _)
          · exact List.mem_cons_of_mem _ (List.mem_cons_of_mem _ hw)
        · intro x hx hxne
          rcases List.mem_cons.mp hx with rfl | hx
          · rcases eq_or_ne b w with rfl | hwb
            · exact hbdomc
            · exact pickDominates_trans
                (hdom b (List.mem_cons_self _ _) hwb) hbdomc
          · exact hdom x hx hxne
      · -- the current best keeps the smaller id
        rw [hstep, g1, if_neg (by simp), if_neg (by rw [g2]; simp),
          if_neg (by exact not_lt.mpr hbid.le), if_pos hbid]
        obtain ⟨w, chw, hwmem, hchw, hfold, hdom⟩ :=
          ih c ch hch ⟨qc, hqc0, hqc⟩ hrest' hpw'
        have hcdomb : pickDominates wt c b := Or.inr ⟨hwtbc, hbid⟩
        refine ⟨w, chw, ?_, hchw, hfold, ?_⟩
        · rcases List.mem_cons.mp hwmem with rfl | hw
          · exact List.mem_cons_self _ _
          · exact List.mem_cons_of_mem _ (List.mem_cons_of_mem _ hw)
        · intro x hx hxne
          rcases List.mem_cons.mp hx with rfl | hx
          · exact hdom x (List.mem_cons_self _ _) hxne
          · rcases List.mem_cons.mp hx with rfl | hx
            · rcases eq_or_ne c w with rfl | hwc
              · exact hcdomb
              · exact pickDominates_trans
                  (hdom c (List.mem_cons_self _ _) hwc) hcdomb
            · exact hdom x (List.mem_cons_of_mem _ hx) hxne
    · have g1 : gtW (wt b) (wt c) = true := by
        rw [hqb, hqc]; simpa [gtW] using hgt
      rw [hstep, if_pos (by rw [g1])]
      obtain ⟨w, chw, hwmem, hchw, hfold, hdom⟩ :=
        ih b chb hchb ⟨qb, hqb0, hqb⟩
          (fun x hx => ⟨(hrest' x hx).1, (hrest' x hx).2.1, hbne' x hx⟩) hpw'
      have hbdomc : pickDominates wt b c := Or.inl g1
      refine ⟨w, chw, ?_, hchw, hfold, ?_⟩
      · rcases List.mem_cons.mp hwmem with rfl | hw
        · exact List.mem_cons_of_mem _ (List.mem_cons_self _ _)
        · exact List.mem_cons_of_mem _ (List.mem_cons_of_mem _ hw)
      · intro x hx hxne
        rcases List.mem_cons.mp hx with rfl | hx
        · rcases eq_or_ne b w with rfl | hwb
          · exact hbdomc
          · exact pickDominates_trans
              (hdom b (List.mem_cons_self _ _) hwb) hbdomc
        · exact hdom x hx hxne

theorem pickStep_char (blocks : List Block)
    (visited : List (Block × List Block)) (wt : Block → Option ℤ)
    (hlen : 2 ≤ blocks.length)
    (hvw : ∀ b ∈ blocks,
      (∃ chb, visited.lookup b = some chb) ∧ (∃ q : ℤ, 0 < q ∧ wt b = some q))
    (hnd : blocks.Pairwise (fun x y => bid x ≠ bid y)) :
    ∃ w chw, w ∈ blocks ∧ visited.lookup w = some chw ∧
      pickHeaviestStep blocks visited wt = some (some w, wt w, chw) ∧
      ∀ b ∈ blocks, b ≠ w → pickDominates wt w b := by
  match blocks, hlen with
  | b₀ :: b₁ :: rest, _ =>
    obtain ⟨⟨ch₀, hch₀⟩, ⟨q₀, hq₀0, hq₀⟩⟩ := hvw b₀ (List.mem_cons_self _ _)
    have hfirst :
        pickFoldStep visited wt (some (none, some 0, [])) b₀ =
          some (some b₀, wt b₀, ch₀) := by
      unfold pickFoldStep
      rw [Option.some_bind, hch₀, Option.map_some', Option.some_bind]
      have hg : gtW (wt b₀) (some 0) = true := by
        rw [hq₀]; simpa [gtW] using hq₀0
      simp [hg]
    have hrest : ∀ x ∈ b₁ :: rest,
        (∃ chx, visited.lookup x = some chx) ∧
        (∃ q : ℤ, 0 < q ∧ wt x = some q) ∧ bid x ≠ bid b₀ := by
      intro x hx
      have hx' := hvw x (List.mem_cons_of_mem _ hx)
      exact ⟨hx'.1, hx'.2,
        fun hxe => (List.pairwise_cons.mp hnd).1 x hx hxe.symm⟩
    obtain ⟨w, chw, hwmem, hchw, hfold, hdom⟩ :=
      pickFold_char visited wt (b₁ :: rest) b₀ ch₀ hch₀ ⟨q₀, hq₀0, hq₀⟩ hrest
        (List.pairwise_cons.mp hnd).2
    refine ⟨w, chw, hwmem, hchw, ?_, hdom⟩
    show (b₀ :: b₁ :: rest).foldl (pickFoldStep visited wt)
        (some (none, some 0, [])) = _
    rw [List.foldl_cons, hfirst]
    exact hfold

/-- C3 (amended): at a fork between two or more candidates, all of whose
subtrees have strictly positive summed endorser weight and whose ids are
distinct, `pick_heaviest` chooses the candidate with maximal summed
weight, breaking ties towards the smaller id, and the choice does not
depend on the enumeration order of the candidate set; a tie at summed
weight zero (against the fold's initial placeholder) or between equal ids
instead poisons the whole choice to `none`. -/
theorem c3_pick_heaviest_fork (blocks : List Block)
    (visited : List (Block × List Block)) (wt : Block → Option ℤ)
    (hlen : 2 ≤ blocks.length)
    (hvw : ∀ b ∈ blocks,
      (∃ chb, visited.lookup b = some chb) ∧ (∃ q : ℤ, 0 < q ∧ wt b = some q))
    (hnd : blocks.Pairwise (fun x y => bid x ≠ bid y)) :
    ∃ w chw, w ∈ blocks ∧ visited.lookup w = some chw ∧
      pickHeaviestStep blocks visited wt = some (some w, wt w, chw) ∧
      (∀ b ∈ blocks, b ≠ w → pickDominates wt w b) ∧
      (∀ blocks', blocks'.Perm blocks →
        pickHeaviestStep blocks' visited wt =
          pickHeaviestStep blocks visited wt) := by
  obtain ⟨w, chw, hwmem, hchw, hres, hdom⟩ :=
    pickStep_char blocks visited wt hlen hvw hnd
  refine ⟨w, chw, hwmem, hchw, hres, hdom, ?_⟩
  intro blocks' hperm
  have hnd' : blocks'.Pairwise (fun x y => bid x ≠ bid y) :=
    (hperm.pairwise_iff fun hxy => Ne.symm hxy).mpr hnd
  obtain ⟨w', chw', hwmem', hchw', hres', hdom'⟩ :=
    pickStep_char blocks' visited wt (by rw [hperm.length_eq]; exact hlen)
      (fun b hb => hvw b (hperm.mem_iff.mp hb)) hnd'
  have hww' : w' = w := by
    by_contra hne
    exact pickDominates_irrefl
      (hdom w' (hperm.mem_iff.mp hwmem') hne)
      (hdom' w (hperm.mem_iff.mpr hwmem) (Ne.symm hne))
  subst hww'
  rw [hres, hres']
  rw [hchw] at hchw'
  cases hchw'
  rfl

/-- Positive endorser weights for the concrete fork: subtree `cbA` weighs
2, everything else 1. -/
def cxWtPos : Block → Option ℤ := fun b => if b = cbA then some 2 else some 1

/-- C3 (witness): the amended fork choice applied to the concrete fork
between `cbA` (weight 2) and `cbB` (weight 1). -/
theorem c3_witness :
    ∃ w chw, w ∈ [cbA, cbB] ∧ cxVisited.lookup w = some chw ∧
      pickHeaviestStep [cbA, cbB] cxVisited cxWtPos =
        some (some w, cxWtPos w, chw) ∧
      (∀ b ∈ [cbA, cbB], b ≠ w → pickDominates cxWtPos w b) ∧
      (∀ blocks', blocks'.Perm [cbA, cbB] →
        pickHeaviestStep blocks' cxVisited cxWtPos =
          pickHeaviestStep [cbA, cbB] cxVisited cxWtPos) :=
  c3_pick_heaviest_fork [cbA, cbB] cxVisited cxWtPos (by decide)
    (by
      intro b hb
      rcases List.mem_cons.mp hb with rfl | hb
      · exact ⟨⟨[], by decide⟩, ⟨2, by decide, by decide⟩⟩
      · rcases List.mem_cons.mp hb with rfl | hb
        · exact ⟨⟨[], by decide⟩, ⟨1, by decide, by decide⟩⟩
        · cases hb)
    (by decide)

/-! ## C4 — the clique safety oracle (`Block::safety_oracles`)

Cliques (`BTreeSet<Validator>`) are modelled as ascending duplicate-free
lists; the clique collection (`HashSet<BTreeSet<_>>`) as a list with
dedup on insert.  Recursions whose termination rests on well-formedness
of the input (the justification closure of the BFS, the shrinking `p` of
Bron–Kerbosch) are bounded by an explicit fuel that the stated bounds
always make sufficient: the BFS strictly decreases the total message
size of the queue, and every Bron–Kerbosch recursion strictly shrinks
`p`. -/

/-- Computation of `LatestMsgs::from(&Justification)`: queue-based
traversal seeding with the justification and enqueuing the justification
of every message whose update changed the map. -/
def lmFromQueueF {E : Type} [DecidableEq E] :
    ℕ → List (Msg E) → LatestM E → LatestM E
  | 0, _, lm => lm
  | fuel + 1, q, lm =>
    match q with
    | [] => lm
    | m :: rest =>
      let r := updateLM lm m
      if r.2 then lmFromQueueF fuel (rest ++ m.just) r.1
      else lmFromQueueF fuel rest r.1

/-- Conversion `LatestMsgs::from(justification)`. -/
def latestFromJ {E : Type} [DecidableEq E] (j : List (Msg E)) : LatestM E :=
  lmFromQueueF (mszList j + 1) j []

/-- Projection `LatestMsgsHonest::from_latest_msgs`: the singleton tip of
every validator that is not an equivocator and has exactly one tip. -/
def honestFrom {E : Type} [DecidableEq E] (lm : LatestM E) (eqv : List V) :
    List (Msg E) :=
  lm.filterMap fun p =>
    if p.1 ∈ eqv ∨ p.2.length ≠ 1 then none else p.2.head?

/-- Helper `latest_in_justification` of `safety_oracles`: the latest
honest messages of the justification closure, keyed by sender. -/
def latestInJust {E : Type} [DecidableEq E] (j : List (Msg E)) (eqv : List V) :
    List (V × Msg E) :=
  (honestFrom (latestFromJ j) eqv).map fun m => (m.sender, m)

/-- Neighbourhood lookup `neighbours[i]` of the Bron–Kerbosch recursion. -/
def nbr (nb : List (V × List V)) (v : V) : List V :=
  (nb.lookup v).getD []

/-- Insertion into the clique collection (`HashSet::insert`). -/
def insertCl (c : List V) (acc : List (List V)) : List (List V) :=
  if c ∈ acc then acc else c :: acc

/-- One level of the pivotless Bron–Kerbosch recursion of
`safety_oracles`, parameterized by the recursive call `go`: when both `p`
and `x` are exhausted emit `r`; otherwise iterate over the snapshot of
`p`, moving each vertex out of `p`, recursing into its neighbourhood and
then moving it into `x`. -/
def bkStep (nb : List (V × List V))
    (go : List V → List V → List V → List (List V) → List (List V))
    (r p x : List V) (acc : List (List V)) : List (List V) :=
  if p = [] ∧ x = [] then insertCl (sortNat r.dedup) acc
  else
    (p.foldl
      (fun st i =>
        let pcur := st.1.erase i
        (pcur, i :: st.2.1,
          go (i :: r) (pcur.filter fun v => v ∈ nbr nb i)
            (st.2.1.filter fun v => v ∈ nbr nb i) st.2.2))
      (p, x, acc)).2.2

/-- Fuelled Bron–Kerbosch (`bron_kerbosch`); every recursion strictly
shrinks `p`, so fuel `p.length + 1` is always sufficient. -/
def bkClq (nb : List (V × List V)) :
    ℕ → List V → List V → List V → List (List V) → List (List V)
  | 0 => fun _ _ _ acc => acc
  | fuel + 1 => bkStep nb (bkClq nb fuel)

/-- NaN-propagating summed weight of a clique
(`fold(ZERO, acc + get_weight(sender).unwrap_or(NAN))`). -/
def sumWS (ws : List (V × ℤ)) (c : List V) : Option ℤ :=
  c.foldl
    (fun acc v =>
      match acc, ws.lookup v with
      | some a, some w => some (a + w)
      | _, _ => none)
    (some 0)

/-- Operation `Block::safety_oracles`: agreeing tips, per-sender views of
agreeing senders, the mutual-agreement graph, its maximal cliques, and
the weight filter retaining cliques whose summed weight strictly exceeds
the threshold. -/
def safetyOracles (block : Block) (lmh : List (Msg Block)) (eqv : List V)
    (thr : ℤ) (ws : List (V × ℤ)) : List (List V) :=
  let latestContainingBlock := lmh.filter fun msg => isMember block msg.est
  let latestAgreeingView : List (V × List (V × Msg Block)) :=
    latestContainingBlock.map fun m =>
      (m.sender, (latestInJust m.just eqv).filter fun p => isMember block p.2.est)
  let neighbours : List (V × List V) :=
    latestAgreeingView.map fun p =>
      (p.1, (p.2.map Prod.fst).filter fun sb =>
        match latestAgreeingView.lookup sb with
        | some seenb => (seenb.lookup p.1).isSome
        | none => false)
  let pAll := neighbours.foldl (fun acc q => acc.union q.2) []
  let clqs := bkClq neighbours (pAll.length + 1) [] pAll [] []
  clqs.filter fun c =>
    match sumWS ws c with
    | some s => decide (thr < s)
    | none => false

/-- C4: every validator set returned by `safety_oracles` has summed weight
strictly greater than the threshold; in particular a clique whose summed
weight equals the threshold exactly is never returned. -/
theorem c4_safety_oracle_weights (block : Block) (lmh : List (Msg Block))
    (eqv : List V) (thr : ℤ) (ws : List (V × ℤ)) (c : List V)
    (hc : c ∈ safetyOracles block lmh eqv thr ws) :
    ∃ s, sumWS ws c = some s ∧ thr < s := by
  have hp := (List.mem_filter.mp hc).2
  rcases hs : sumWS ws c with _ | s
  · rw [hs] at hp
    cases hp
  · rw [hs] at hp
    exact ⟨s, rfl, of_decide_eq_true hp⟩

/-- Genesis block of the safety-oracle witness chain. -/
def tb0 : Block := .gen 0

/-- Block by validator 1 on `tb0`. -/
def tb1 : Block := .ext tb0 1

/-- Block by validator 0 on `tb1`. -/
def tb2 : Block := .ext tb1 0

/-- Block by validator 1 on `tb2`. -/
def tb3 : Block := .ext tb2 1

/-- Message carrying `tb0`. -/
def tm0 : Msg Block := .mk 0 tb0 []

/-- Message carrying `tb1`, justified by `tm0`. -/
def tm1 : Msg Block := .mk 1 tb1 [tm0]

/-- Message carrying `tb2`, justified by `tm1`. -/
def tm2 : Msg Block := .mk 0 tb2 [tm1]

/-- Message carrying `tb3`, justified by `tm2`. -/
def tm3 : Msg Block := .mk 1 tb3 [tm2]

/-- C4 (witness): the weight bound applied to the clique `{0, 1}`
returned for the concrete two-validator chain over genesis `tb0` at
threshold 1. -/
theorem c4_witness :
    ∃ s, sumWS [(0, 1), (1, 1)] [0, 1] = some s ∧ 1 < s :=
  c4_safety_oracle_weights tb0 [tm2, tm3] [] 1 [(0, 1), (1, 1)] [0, 1]
    (by decide)
